import Mathlib

/-!
Verification of the SAT model converter (sat_model_converter.cpp): the ledger of
elimination entries, the reverse-order replay pass, the model checker, the
structural invariant checker and the introspection utilities, embedded as pure
Lean functions over a three-valued model.
-/

namespace SatMC

/-- Three-valued truth value (lbool in the source). -/
inductive LBool where
  | l_true
  | l_false
  | l_undef
deriving DecidableEq, Repr

open LBool

/-- Negation on lbool: swaps l_true and l_false, keeps l_undef. -/
def lneg : LBool → LBool
  | l_true => l_false
  | l_false => l_true
  | l_undef => l_undef

/-- Reserved variable index of the null literal (null_bool_var in the source,
UINT_MAX >> 1). -/
def null_bool_var : Nat := 2147483647

/-- A literal: a (variable, sign) pair with sign true meaning negative, or the
reserved null literal used as the end-of-clause sentinel inside a flattened
justification. -/
inductive Lit where
  | lit (v : Nat) (sign : Bool)
  | null
deriving DecidableEq, Repr

/-- Variable index of a literal (literal::var in the source); the null literal
carries the reserved index null_bool_var. -/
def Lit.varIdx : Lit → Nat
  | Lit.lit v _ => v
  | Lit.null => null_bool_var

/-- Entry kind (model_converter::kind in the source). -/
inductive EKind where
  | ELIM_VAR
  | BLOCK_LIT
deriving DecidableEq, Repr

/-- One ledger entry (model_converter::entry): the eliminated or blocked variable
plus the flattened sentinel-delimited justification clause list (m_clauses). -/
structure Entry where
  kind : EKind
  var : Nat
  clauses : List Lit
deriving DecidableEq, Repr

/-- The model converter: an ordered list of entries (m_entries), insertion order
being chronological elimination order. -/
structure ModelConverter where
  entries : List Entry
deriving DecidableEq, Repr

/-- A model: a three-valued assignment, one value per variable index. -/
def Model := Nat → LBool

/-- Point update of a model (the assignment m[v] = val in the source). -/
def updateM (m : Model) (v : Nat) (val : LBool) : Model :=
  fun w => if w = v then val else m w

/-- value_at(l, m): the truth value of the literal (v, s) under model m. -/
def value_at (v : Nat) (s : Bool) (m : Model) : LBool :=
  if s then lneg (m v) else m v

/-- The per-entry scan of model_converter::operator(): walk the flattened
justification with the clause-satisfied flag sat and the running var_sign.
At a sentinel with the clause unsatisfied, assign the entry variable the value
its last-seen polarity makes true and stop. Before the sentinel: skip literals
of a satisfied clause; record the polarity of the entry variable; mark the
clause satisfied on a true literal; otherwise assign a currently undefined
non-entry variable the value satisfying its literal and mark the clause
satisfied. -/
def applyEntry (ev : Nat) : List Lit → Bool → Bool → Model → Model
  | [], _, _, m => m
  | Lit.null :: rest, sat, varSign, m =>
    if sat then applyEntry ev rest false varSign m
    else updateM m ev (if varSign then l_false else l_true)
  | Lit.lit v s :: rest, sat, varSign, m =>
    if sat then applyEntry ev rest sat varSign m
    else
      if value_at v s m = l_true then
        applyEntry ev rest true (if v = ev then s else varSign) m
      else if v ≠ ev ∧ m v = l_undef then
        applyEntry ev rest true (if v = ev then s else varSign)
          (updateM m v (if s then l_false else l_true))
      else
        applyEntry ev rest sat (if v = ev then s else varSign) m

/-- The entry loop of model_converter::operator(), already given the entries in
processing order (reverse of insertion order). -/
def applyRev : List Entry → Model → Model
  | [], m => m
  | e :: rest, m => applyRev rest (applyEntry e.var e.clauses false false m)

/-- model_converter::operator(): replay the ledger in reverse insertion order,
patching the model in place. -/
def applyMC (mc : ModelConverter) (m : Model) : Model :=
  applyRev mc.entries.reverse m

/-- The clause-satisfaction scan shared by check_model's inner loop and the
DEBUG_CODE self-check of operator(): sat marks the clause currently being
scanned satisfied; at each sentinel the current clause must be satisfied;
literals after the last sentinel never complete a clause. -/
def clsOk (m : Model) : List Lit → Bool → Bool
  | [], _ => true
  | Lit.null :: rest, sat => sat && clsOk m rest false
  | Lit.lit v s :: rest, sat =>
    clsOk m rest (sat || decide (value_at v s m = l_true))

/-- model_converter::check_model: non-mutating reverse-order pass that recomputes
the satisfaction of every justification clause of every entry. -/
def check_model (mc : ModelConverter) (m : Model) : Bool :=
  mc.entries.reverse.all (fun e => clsOk m e.clauses false)

/-- The DEBUG_CODE self-check inside operator(): immediately after each entry is
patched, every clause of that entry must be satisfied under the updated model. -/
def applySelfCheck : List Entry → Model → Bool
  | [], _ => true
  | e :: rest, m =>
    clsOk (applyEntry e.var e.clauses false false m) e.clauses false &&
      applySelfCheck rest (applyEntry e.var e.clauses false false m)

/-- The sentinel-delimited clauses of a flattened justification; acc accumulates
the literals of the clause currently open (in reverse); literals after the last
sentinel form no clause. -/
def splitCl : List Lit → List Lit → List (List Lit)
  | [], _ => []
  | Lit.null :: rest, acc => acc.reverse :: splitCl rest []
  | l :: rest, acc => splitCl rest (l :: acc)

/-- Whether a literal evaluates to true under the model. -/
def litIsTrue (m : Model) : Lit → Bool
  | Lit.lit v s => decide (value_at v s m = l_true)
  | Lit.null => false

/-- model_converter::check_invariant: in the source every check inside the loop
is a debug assertion (SASSERT) with no effect on the result, and the function
unconditionally returns true. The asserted conditions are modelled separately
by check_invariant_asserts. -/
def check_invariant (_mc : ModelConverter) (_num_vars : Nat) : Bool := true

/-- One literal's SASSERT conditions inside check_invariant's inner loop:
the literal is not over the eliminated variable w, and is either the null
literal or over a variable below num_vars. -/
def litAssertOk (w : Nat) (n : Nat) (l : Lit) : Bool :=
  decide (l.varIdx ≠ w) && (decide (l = Lit.null) || decide (l.varIdx < n))

/-- The loop of check_invariant as the conjunction of its SASSERT conditions:
every entry's variable is below num_vars, and for an ELIM_VAR entry no later
entry owns the same variable or mentions it in its justification. -/
def ciaGo (n : Nat) : List Entry → Bool
  | [] => true
  | e :: rest =>
    decide (e.var < n) &&
      (if e.kind = EKind.ELIM_VAR then
        rest.all (fun e2 =>
          decide (e2.var ≠ e.var) && e2.clauses.all (litAssertOk e.var n))
      else true) &&
      ciaGo n rest

/-- Conjunction of the SASSERT conditions checked (debug builds only) by
model_converter::check_invariant. -/
def check_invariant_asserts (mc : ModelConverter) (num_vars : Nat) : Bool :=
  ciaGo num_vars mc.entries

/-- model_converter::insert(entry, clause): append every literal of the clause in
order, then the sentinel. -/
def insertClause (e : Entry) (c : List Lit) : Entry :=
  { e with clauses := e.clauses ++ c ++ [Lit.null] }

/-- model_converter::insert(entry, l1, l2): append the two literals of a binary
clause, then the sentinel. -/
def insertBin (e : Entry) (l1 l2 : Lit) : Entry :=
  { e with clauses := e.clauses ++ [l1, l2, Lit.null] }

/-- In-place update of the entry at one ledger position, the others untouched. -/
def modifyIdx : List Entry → Nat → (Entry → Entry) → List Entry
  | [], _, _ => []
  | a :: rest, 0, f => f a :: rest
  | a :: rest, Nat.succ k, f => a :: modifyIdx rest k f

/-- attach_clause acting on the entry at position i of the ledger. -/
def attachClause (mc : ModelConverter) (i : Nat) (c : List Lit) : ModelConverter :=
  ⟨modifyIdx mc.entries i (fun e => insertClause e c)⟩

/-- attach_binary acting on the entry at position i of the ledger. -/
def attachBin (mc : ModelConverter) (i : Nat) (l1 l2 : Lit) : ModelConverter :=
  ⟨modifyIdx mc.entries i (fun e => insertBin e l1 l2)⟩

/-- The inner loop of model_converter::max_var: fold the running maximum over the
variables of the non-null literals of one justification. -/
def maxLits : Nat → List Lit → Nat
  | r, [] => r
  | r, Lit.null :: rest => maxLits r rest
  | r, Lit.lit v _ :: rest => maxLits (if v > r then v else r) rest

/-- model_converter::max_var(min): the maximum of min and every variable index
occurring in any non-null literal of any entry's justification. -/
def max_var (mc : ModelConverter) (min : Nat) : Nat :=
  mc.entries.foldl (fun r e => maxLits r e.clauses) min

/-- model_converter::reset: clears all entries. -/
def resetMC (_mc : ModelConverter) : ModelConverter := ⟨[]⟩

/-- m_entries.append of the source entries onto the destination entries. -/
def appendEntries (dst src : ModelConverter) : ModelConverter :=
  ⟨dst.entries ++ src.entries⟩

/-- model_converter::copy(src): reset() followed by m_entries.append(src.m_entries),
for distinct source and destination objects. -/
def copyMC (dst src : ModelConverter) : ModelConverter :=
  appendEntries (resetMC dst) src

/-- model_converter::copy called with the converter itself as source: the reset
clears the one shared object, so the subsequent append reads the cleared entry
list. -/
def selfCopy (mc : ModelConverter) : ModelConverter :=
  appendEntries (resetMC mc) (resetMC mc)

/-- Precondition of operator(): every variable not owned by a ledger entry is
already assigned. -/
def applyPre (mc : ModelConverter) (m : Model) : Prop :=
  ∀ v, (∀ e ∈ mc.entries, e.var ≠ v) → m v ≠ l_undef

/-- Some literal over variable w occurs in the flattened clause list. -/
def varMentioned (w : Nat) (cls : List Lit) : Prop :=
  ∃ s, Lit.lit w s ∈ cls

/-- Strengthened structural invariant, in insertion order: no entry's variable
occurs in the justification of any later entry (for every entry kind). -/
def noLaterRef : List Entry → Prop
  | [] => True
  | e :: rest => (∀ e2 ∈ rest, ¬ varMentioned e.var e2.clauses) ∧ noLaterRef rest

/-- The same invariant on the processing-order (reversed) list: no entry's
justification mentions the variable of an entry processed after it. -/
def revInv : List Entry → Prop
  | [] => True
  | e :: rest => (∀ e2 ∈ rest, ¬ varMentioned e2.var e.clauses) ∧ revInv rest

/-- The running var_sign after scanning a clause list: the sign of the last
literal over ev, starting from vs. -/
def varSignAfter (ev : Nat) : List Lit → Bool → Bool
  | [], vs => vs
  | Lit.null :: rest, vs => varSignAfter ev rest vs
  | Lit.lit v s :: rest, vs => varSignAfter ev rest (if v = ev then s else vs)

/-- The polarity of the last occurrence of ev in a clause list, if any. -/
def lastPolIn (ev : Nat) : List Lit → Option Bool → Option Bool
  | [], acc => acc
  | Lit.null :: rest, acc => lastPolIn ev rest acc
  | Lit.lit v s :: rest, acc => lastPolIn ev rest (if v = ev then some s else acc)

/-- Scenario A entry: ELIM_VAR entry for variable 3 whose single justification
clause is (var 1 positive, var 3 negative). -/
def eA : Entry := ⟨EKind.ELIM_VAR, 3, [Lit.lit 1 false, Lit.lit 3 true, Lit.null]⟩

/-- Scenario A ledger: the single entry eA. -/
def mcA : ModelConverter := ⟨[eA]⟩

/-- Scenario A model: variable 3 undefined, every other variable false. -/
def mA : Model := fun v => if v = 3 then l_undef else l_false

/-- Scenario B model: variable 3 undefined, every other variable true (so the
clause of mcA is already satisfied through variable 1). -/
def mB : Model := fun v => if v = 3 then l_undef else l_true

/-- An ELIM_VAR entry for variable 3 whose justification holds the two
contradictory unit clauses (var 3 positive) and (var 3 negative). -/
def eContra : Entry :=
  ⟨EKind.ELIM_VAR, 3, [Lit.lit 3 false, Lit.null, Lit.lit 3 true, Lit.null]⟩

/-- A ledger with the single entry eContra. -/
def mcContra : ModelConverter := ⟨[eContra]⟩

/-- Scenario C ledger: entry for variable 5 inserted first, then an entry for
variable 3 whose justification mentions variable 5. -/
def scenC : ModelConverter :=
  ⟨[⟨EKind.ELIM_VAR, 5, [Lit.lit 5 false, Lit.null]⟩,
    ⟨EKind.ELIM_VAR, 3, [Lit.lit 5 false, Lit.lit 3 true, Lit.null]⟩]⟩

/-- A ledger whose two entries share variable 5. -/
def dupMC : ModelConverter :=
  ⟨[⟨EKind.ELIM_VAR, 5, [Lit.lit 5 false, Lit.null]⟩,
    ⟨EKind.ELIM_VAR, 5, [Lit.lit 5 true, Lit.null]⟩]⟩

/-- An ELIM_VAR entry for variable 3 whose single justification clause is
(var 0 positive, var 3 positive). -/
def e6 : Entry := ⟨EKind.ELIM_VAR, 3, [Lit.lit 0 false, Lit.lit 3 false, Lit.null]⟩

/-- A ledger with the single entry e6. -/
def mc6 : ModelConverter := ⟨[e6]⟩

/-- A model leaving variable 0 undefined and every other variable true. -/
def m6 : Model := fun v => if v = 0 then l_undef else l_true

/-- The everywhere-true model. -/
def mAllTrue : Model := fun _ => l_true

/-- A true literal has a defined variable. -/
theorem value_at_true_defined {v : Nat} {s : Bool} {m : Model}
    (h : value_at v s m = l_true) : m v ≠ l_undef := by
  cases s <;> cases hv : m v <;> simp [value_at, hv, lneg] at h ⊢

/-- The per-entry scan changes no defined variable other than the entry's own. -/
theorem applyEntry_preserve (ev : Nat) :
    ∀ (cls : List Lit) (sat varSign : Bool) (m : Model) (v : Nat),
      v ≠ ev → m v ≠ l_undef → applyEntry ev cls sat varSign m v = m v := by
  intro cls
  induction cls with
  | nil => intro sat varSign m v _ _; rfl
  | cons l rest ih =>
    intro sat varSign m v hv hd
    cases l with
    | null =>
      by_cases hs : sat
      · simp only [applyEntry, if_pos hs]; exact ih _ _ _ _ hv hd
      · simp only [applyEntry, if_neg hs, updateM, if_neg hv]
    | lit w s =>
      by_cases hs : sat
      · simp only [applyEntry, if_pos hs]; exact ih _ _ _ _ hv hd
      · simp only [applyEntry, if_neg hs]
        by_cases hval : value_at w s m = l_true
        · simp only [if_pos hval]; exact ih _ _ _ _ hv hd
        · simp only [if_neg hval]
          by_cases hund : w ≠ ev ∧ m w = l_undef
          · simp only [if_pos hund]
            have hvw : v ≠ w := fun h => hd (h ▸ hund.2)
            have hd2 : updateM m w (if s then l_false else l_true) v ≠ l_undef := by
              simpa [updateM, if_neg hvw] using hd
            rw [ih _ _ _ _ hv hd2]
            simp [updateM, if_neg hvw]
          · simp only [if_neg hund]; exact ih _ _ _ _ hv hd

/-- The per-entry scan never writes l_undef: a defined variable stays defined. -/
theorem applyEntry_no_undef (ev : Nat) :
    ∀ (cls : List Lit) (sat varSign : Bool) (m : Model) (v : Nat),
      m v ≠ l_undef → applyEntry ev cls sat varSign m v ≠ l_undef := by
  intro cls
  induction cls with
  | nil => intro sat varSign m v hd; exact hd
  | cons l rest ih =>
    intro sat varSign m v hd
    cases l with
    | null =>
      by_cases hs : sat
      · simp only [applyEntry, if_pos hs]; exact ih _ _ _ _ hd
      · simp only [applyEntry, if_neg hs, updateM]
        by_cases hve : v = ev
        · simp only [if_pos hve]; cases varSign <;> simp
        · simp only [if_neg hve]; exact hd
    | lit w s =>
      by_cases hs : sat
      · simp only [applyEntry, if_pos hs]; exact ih _ _ _ _ hd
      · simp only [applyEntry, if_neg hs]
        by_cases hval : value_at w s m = l_true
        · simp only [if_pos hval]; exact ih _ _ _ _ hd
        · simp only [if_neg hval]
          by_cases hund : w ≠ ev ∧ m w = l_undef
          · simp only [if_pos hund]
            apply ih
            by_cases hvw : v = w
            · simp only [updateM, if_pos hvw]; cases s <;> simp
            · simpa [updateM, if_neg hvw] using hd
          · simp only [if_neg hund]; exact ih _ _ _ _ hd

/-- The replay loop changes no defined variable owned by no processed entry. -/
theorem applyRev_preserve :
    ∀ (p : List Entry) (m : Model) (v : Nat),
      m v ≠ l_undef → (∀ e ∈ p, e.var ≠ v) → applyRev p m v = m v := by
  intro p
  induction p with
  | nil => intro m v _ _; rfl
  | cons e rest ih =>
    intro m v hd hv
    have h1 : applyEntry e.var e.clauses false false m v = m v :=
      applyEntry_preserve _ _ _ _ _ _
        (fun h => hv e (List.mem_cons_self _ _) h.symm) hd
    show applyRev rest (applyEntry e.var e.clauses false false m) v = m v
    rw [ih _ _ (h1 ▸ hd) (fun e2 he2 => hv e2 (List.mem_cons_of_mem _ he2)), h1]

/-- The replay loop never writes l_undef. -/
theorem applyRev_no_undef :
    ∀ (p : List Entry) (m : Model) (v : Nat),
      m v ≠ l_undef → applyRev p m v ≠ l_undef := by
  intro p
  induction p with
  | nil => intro m v hd; exact hd
  | cons e rest ih =>
    intro m v hd
    exact ih _ _ (applyEntry_no_undef _ _ _ _ _ _ hd)

/-- The clause scan is monotone in the incoming clause-satisfied flag. -/
theorem clsOk_mono (m : Model) :
    ∀ (cls : List Lit) (b1 b2 : Bool), (b1 = true → b2 = true) →
      clsOk m cls b1 = true → clsOk m cls b2 = true := by
  intro cls
  induction cls with
  | nil => intro b1 b2 _ _; rfl
  | cons l rest ih =>
    intro b1 b2 hb h
    cases l with
    | null =>
      simp only [clsOk, Bool.and_eq_true] at h ⊢
      exact ⟨hb h.1, h.2⟩
    | lit v s =>
      simp only [clsOk] at h ⊢
      apply ih _ _ _ h
      intro h1
      simp only [Bool.or_eq_true] at h1 ⊢
      tauto

/-- Clause satisfaction is preserved by any model that agrees with the old one on
the defined variables occurring in the clause list. -/
theorem clsOk_preserve (m m2 : Model) :
    ∀ (cls : List Lit) (b : Bool),
      (∀ v s, Lit.lit v s ∈ cls → m v ≠ l_undef → m2 v = m v) →
      clsOk m cls b = true → clsOk m2 cls b = true := by
  intro cls
  induction cls with
  | nil => intro b _ _; rfl
  | cons l rest ih =>
    intro b hagree h
    cases l with
    | null =>
      simp only [clsOk, Bool.and_eq_true] at h ⊢
      exact ⟨h.1, ih _ (fun v s hm => hagree v s (List.mem_cons_of_mem _ hm)) h.2⟩
    | lit v s =>
      simp only [clsOk] at h ⊢
      have hrest : ∀ v2 s2, Lit.lit v2 s2 ∈ rest → m v2 ≠ l_undef → m2 v2 = m v2 :=
        fun v2 s2 hm => hagree v2 s2 (List.mem_cons_of_mem _ hm)
      by_cases hval : value_at v s m = l_true
      · have hdef : m v ≠ l_undef := value_at_true_defined hval
        have heq : m2 v = m v := hagree v s (List.mem_cons_self _ _) hdef
        have hval2 : value_at v s m2 = l_true := by
          simpa [value_at, heq] using hval
        have hd1 : decide (value_at v s m = l_true) = true := by simp [hval]
        have hd2 : decide (value_at v s m2 = l_true) = true := by simp [hval2]
        rw [hd1] at h
        rw [hd2]
        exact ih _ hrest h
      · have hd1 : decide (value_at v s m = l_true) = false := by
          simpa using hval
        rw [hd1, Bool.or_false] at h
        apply clsOk_mono m2 rest b _ _ (ih _ hrest h)
        intro hb
        simp [hb]

/-- After the scan of one entry, either the entry's variable is defined or every
clause of the scanned justification is satisfied under the resulting model. -/
theorem applyEntry_self (ev : Nat) :
    ∀ (cls : List Lit) (sat varSign : Bool) (m : Model),
      applyEntry ev cls sat varSign m ev ≠ l_undef ∨
        clsOk (applyEntry ev cls sat varSign m) cls sat = true := by
  intro cls
  induction cls with
  | nil => intro sat varSign m; exact Or.inr rfl
  | cons l rest ih =>
    intro sat varSign m
    cases l with
    | null =>
      by_cases hs : sat = true
      · simp only [applyEntry, if_pos hs, hs]
        rcases ih false varSign m with hL | hR
        · exact Or.inl hL
        · exact Or.inr (by simp only [clsOk, Bool.true_and]; exact hR)
      · simp only [applyEntry, if_neg hs]
        apply Or.inl
        simp only [updateM, if_pos rfl]
        cases varSign <;> simp
    | lit v s =>
      by_cases hs : sat = true
      · simp only [applyEntry, if_pos hs, hs]
        rcases ih true varSign m with hL | hR
        · exact Or.inl hL
        · exact Or.inr (by simp only [clsOk, Bool.true_or]; exact hR)
      · simp only [applyEntry, if_neg hs]
        have hsf : sat = false := Bool.eq_false_iff.mpr hs
        subst hsf
        by_cases hval : value_at v s m = l_true
        · simp only [if_pos hval]
          by_cases hundef :
              applyEntry ev rest true (if v = ev then s else varSign) m ev = l_undef
          · have hmev : m ev = l_undef := by
              by_contra hme
              exact (applyEntry_no_undef ev rest true _ m ev hme) hundef
            have hvne : v ≠ ev := fun h =>
              (value_at_true_defined hval) (h ▸ hmev)
            have hpres :
                applyEntry ev rest true (if v = ev then s else varSign) m v = m v :=
              applyEntry_preserve ev rest true _ m v hvne (value_at_true_defined hval)
            have hval2 :
                value_at v s (applyEntry ev rest true (if v = ev then s else varSign) m)
                  = l_true := by
              unfold value_at at hval ⊢
              rw [hpres]
              exact hval
            rcases ih true (if v = ev then s else varSign) m with hL | hR
            · exact Or.inl hL
            · apply Or.inr
              simp only [clsOk, hval2]
              simpa using hR
          · exact Or.inl hundef
        · simp only [if_neg hval]
          by_cases hund : v ≠ ev ∧ m v = l_undef
          · simp only [if_pos hund]
            by_cases hundef :
                applyEntry ev rest true (if v = ev then s else varSign)
                  (updateM m v (if s then l_false else l_true)) ev = l_undef
            · have hm2v : updateM m v (if s then l_false else l_true) v ≠ l_undef := by
                simp only [updateM, if_pos rfl]
                cases s <;> simp
              have hpres :
                  applyEntry ev rest true (if v = ev then s else varSign)
                      (updateM m v (if s then l_false else l_true)) v
                    = updateM m v (if s then l_false else l_true) v :=
                applyEntry_preserve ev rest true _ _ v hund.1 hm2v
              have hval2 :
                  value_at v s
                      (applyEntry ev rest true (if v = ev then s else varSign)
                        (updateM m v (if s then l_false else l_true)))
                    = l_true := by
                unfold value_at
                rw [hpres]
                simp only [updateM, if_pos rfl]
                cases s <;> simp [lneg]
              rcases ih true (if v = ev then s else varSign)
                  (updateM m v (if s then l_false else l_true)) with hL | hR
              · exact Or.inl hL
              · apply Or.inr
                simp only [clsOk, hval2]
                simpa using hR
            · exact Or.inl hundef
          · simp only [if_neg hund]
            by_cases hundef :
                applyEntry ev rest false (if v = ev then s else varSign) m ev = l_undef
            · have hvalm2 :
                  value_at v s (applyEntry ev rest false (if v = ev then s else varSign) m)
                    ≠ l_true := by
                by_cases hvev : v = ev
                · subst hvev
                  unfold value_at
                  rw [hundef]
                  cases s <;> simp [lneg]
                · have hdef : m v ≠ l_undef := by
                    rcases not_and_or.mp hund with h1 | h2
                    · exact absurd hvev h1
                    · exact h2
                  have hpres :
                      applyEntry ev rest false (if v = ev then s else varSign) m v = m v :=
                    applyEntry_preserve ev rest false _ m v hvev hdef
                  unfold value_at at hval ⊢
                  rw [hpres]
                  exact hval
              rcases ih false (if v = ev then s else varSign) m with hL | hR
              · exact Or.inl hL
              · apply Or.inr
                simp only [clsOk]
                have hd : decide
                    (value_at v s
                        (applyEntry ev rest false (if v = ev then s else varSign) m)
                      = l_true) = false := by
                  simpa using hvalm2
                rw [hd, Bool.or_false]
                exact hR
            · exact Or.inl hundef

/-- On a model whose justification variables are all defined and whose clauses
are all already satisfied, the per-entry scan writes nothing. -/
theorem applyEntry_noop (ev : Nat) :
    ∀ (cls : List Lit) (sat varSign : Bool) (m : Model),
      (∀ v s, Lit.lit v s ∈ cls → m v ≠ l_undef) →
      clsOk m cls sat = true →
      applyEntry ev cls sat varSign m = m := by
  intro cls
  induction cls with
  | nil => intro sat varSign m _ _; rfl
  | cons l rest ih =>
    intro sat varSign m hdef hok
    have hdef2 : ∀ v s, Lit.lit v s ∈ rest → m v ≠ l_undef :=
      fun v s hm => hdef v s (List.mem_cons_of_mem _ hm)
    cases l with
    | null =>
      simp only [clsOk, Bool.and_eq_true] at hok
      simp only [applyEntry, if_pos hok.1]
      exact ih false varSign m hdef2 hok.2
    | lit v s =>
      by_cases hs : sat = true
      · subst hs
        simp only [applyEntry, if_pos rfl]
        simp only [clsOk, Bool.true_or] at hok
        exact ih true varSign m hdef2 hok
      · have hsf : sat = false := Bool.eq_false_iff.mpr hs
        subst hsf
        simp only [applyEntry, if_neg hs]
        have hdefv : m v ≠ l_undef := hdef v s (List.mem_cons_self _ _)
        simp only [clsOk, Bool.false_or] at hok
        by_cases hval : value_at v s m = l_true
        · simp only [if_pos hval]
          have hd : decide (value_at v s m = l_true) = true := by simp [hval]
          rw [hd] at hok
          exact ih true _ m hdef2 hok
        · simp only [if_neg hval, if_neg (fun h : v ≠ ev ∧ m v = l_undef => hdefv h.2)]
          have hd : decide (value_at v s m = l_true) = false := by simpa using hval
          rw [hd] at hok
          exact ih false _ m hdef2 hok

/-- On a model whose justification variables are all defined and whose clauses
are all already satisfied, the whole replay loop writes nothing. -/
theorem applyRev_noop :
    ∀ (p : List Entry) (m : Model),
      (∀ e ∈ p, ∀ v s, Lit.lit v s ∈ e.clauses → m v ≠ l_undef) →
      (∀ e ∈ p, clsOk m e.clauses false = true) →
      applyRev p m = m := by
  intro p
  induction p with
  | nil => intro m _ _; rfl
  | cons e rest ih =>
    intro m hdef hok
    have h1 : applyEntry e.var e.clauses false false m = m :=
      applyEntry_noop e.var e.clauses false false m
        (hdef e (List.mem_cons_self _ _)) (hok e (List.mem_cons_self _ _))
    show applyRev rest (applyEntry e.var e.clauses false false m) = m
    rw [h1]
    exact ih m (fun e2 he2 => hdef e2 (List.mem_cons_of_mem _ he2))
      (fun e2 he2 => hok e2 (List.mem_cons_of_mem _ he2))

/-- Boolean any is invariant under list reversal. -/
theorem any_reverse_eq {α : Type} (l : List α) (p : α → Bool) :
    l.reverse.any p = l.any p := by
  induction l with
  | nil => rfl
  | cons a l ih => simp [List.reverse_cons, List.any_append, ih, Bool.or_comm]

/-- The clause scan succeeds exactly when every sentinel-delimited clause holds a
true literal, given that the flag matches the open clause accumulated so far. -/
theorem clsOk_iff_splitCl (m : Model) :
    ∀ (cls acc : List Lit) (b : Bool),
      b = acc.any (litIsTrue m) →
      (clsOk m cls b = true ↔
        ∀ c ∈ splitCl cls acc, c.any (litIsTrue m) = true) := by
  intro cls
  induction cls with
  | nil => intro acc b _; simp [clsOk, splitCl]
  | cons l rest ih =>
    intro acc b hb
    cases l with
    | null =>
      simp only [clsOk, splitCl, Bool.and_eq_true]
      constructor
      · rintro ⟨h1, h2⟩ c hc
        rcases List.mem_cons.mp hc with rfl | hc2
        · rw [any_reverse_eq, ← hb]; exact h1
        · exact ((ih [] false rfl).mp h2) c hc2
      · intro h
        refine ⟨?_, ?_⟩
        · rw [hb, ← any_reverse_eq]; exact h _ (List.mem_cons_self _ _)
        · exact (ih [] false rfl).mpr (fun c hc => h c (List.mem_cons_of_mem _ hc))
    | lit v s =>
      simp only [clsOk, splitCl]
      apply ih (Lit.lit v s :: acc)
      rw [hb]
      simp [List.any_cons, litIsTrue, Bool.or_comm]

/-- check_model succeeds exactly when each entry's clause scan succeeds. -/
theorem check_model_iff_entries (mc : ModelConverter) (m : Model) :
    check_model mc m = true ↔ ∀ e ∈ mc.entries, clsOk m e.clauses false = true := by
  unfold check_model
  rw [List.all_eq_true]
  constructor
  · intro h e he; exact h e (List.mem_reverse.mpr he)
  · intro h e he; exact h e (List.mem_reverse.mp he)

/-- Appending a final entry to a processing-order list splits the invariant. -/
theorem revInv_append (e : Entry) :
    ∀ (xs : List Entry),
      revInv (xs ++ [e]) ↔
        (revInv xs ∧ ∀ x ∈ xs, ¬ varMentioned e.var x.clauses) := by
  intro xs
  induction xs with
  | nil => simp [revInv]
  | cons a xs ih =>
    constructor
    · rintro ⟨h1, h2⟩
      obtain ⟨h3, h4⟩ := ih.mp h2
      refine ⟨⟨?_, h3⟩, ?_⟩
      · intro e2 he2; exact h1 e2 (List.mem_append_left _ he2)
      · intro x hx
        rcases List.mem_cons.mp hx with rfl | hx2
        · exact h1 e (List.mem_append_right _ (List.mem_singleton.mpr rfl))
        · exact h4 x hx2
    · rintro ⟨⟨ha, h3⟩, h4⟩
      refine ⟨?_, ih.mpr ⟨h3, fun x hx => h4 x (List.mem_cons_of_mem _ hx)⟩⟩
      intro e2 he2
      rcases List.mem_append.mp he2 with h | h
      · exact ha e2 h
      · rw [List.mem_singleton.mp h]
        exact h4 a (List.mem_cons_self _ _)

/-- The insertion-order invariant is the processing-order invariant of the
reversed entry list. -/
theorem noLaterRef_iff_revInv :
    ∀ (l : List Entry), noLaterRef l ↔ revInv l.reverse := by
  intro l
  induction l with
  | nil => simp [noLaterRef, revInv]
  | cons e rest ih =>
    rw [List.reverse_cons, revInv_append]
    simp only [noLaterRef, List.mem_reverse, ← ih]
    tauto

/-- If the processing-order invariant holds and every per-entry debug self-check
passes, then every entry's clauses are satisfied under the final model. -/
theorem applyRev_selfcheck_sat :
    ∀ (p : List Entry) (m : Model),
      revInv p → applySelfCheck p m = true →
      ∀ e ∈ p, clsOk (applyRev p m) e.clauses false = true := by
  intro p
  induction p with
  | nil => intro m _ _ e he; cases he
  | cons e0 rest ih =>
    intro m hinv hsc e he
    simp only [applySelfCheck, Bool.and_eq_true] at hsc
    obtain ⟨hinv1, hinv2⟩ := hinv
    show clsOk (applyRev rest (applyEntry e0.var e0.clauses false false m))
      e.clauses false = true
    rcases List.mem_cons.mp he with rfl | hmem
    · apply clsOk_preserve (applyEntry e.var e.clauses false false m) _ _ _ _ hsc.1
      intro v s hl hd
      apply applyRev_preserve _ _ _ hd
      intro e2 he2 hveq
      exact hinv1 e2 he2 ⟨s, hveq ▸ hl⟩
    · exact ih _ hinv2 hsc.2 e hmem

/-- Under the processing-order invariant, every processed entry's variable ends
defined, or all of that entry's clauses end satisfied. -/
theorem applyRev_totality :
    ∀ (p : List Entry) (m : Model), revInv p →
      ∀ e ∈ p, applyRev p m e.var ≠ l_undef ∨
        clsOk (applyRev p m) e.clauses false = true := by
  intro p
  induction p with
  | nil => intro m _ e he; cases he
  | cons e0 rest ih =>
    intro m hinv e he
    obtain ⟨hinv1, hinv2⟩ := hinv
    rcases List.mem_cons.mp he with rfl | hmem
    · rcases applyEntry_self e.var e.clauses false false m with hL | hR
      · exact Or.inl (applyRev_no_undef rest _ _ hL)
      · apply Or.inr
        apply clsOk_preserve (applyEntry e.var e.clauses false false m) _ _ _ _ hR
        intro v s hl hd
        apply applyRev_preserve _ _ _ hd
        intro e2 he2 hveq
        exact hinv1 e2 he2 ⟨s, hveq ▸ hl⟩
    · exact ih _ hinv2 e hmem

/-- Scanning a clause none of whose literals is true or assignable (each literal
is over the entry variable or over a defined variable) reaches the sentinel
unsatisfied: the entry variable is assigned from the running var_sign and the
rest of the justification is not scanned. -/
theorem applyEntry_unsat_clause (ev : Nat) :
    ∀ (c rest : List Lit) (vs0 : Bool) (m : Model),
      Lit.null ∉ c →
      (∀ l ∈ c, litIsTrue m l = false ∧ (l.varIdx = ev ∨ m l.varIdx ≠ l_undef)) →
      applyEntry ev (c ++ Lit.null :: rest) false vs0 m =
        updateM m ev (if varSignAfter ev c vs0 then l_false else l_true) := by
  intro c
  induction c with
  | nil =>
    intro rest vs0 m _ _
    simp [applyEntry, varSignAfter]
  | cons l c ih =>
    intro rest vs0 m hnn h
    cases l with
    | null => exact absurd (List.mem_cons_self _ _) hnn
    | lit v s =>
      obtain ⟨hval, hdef⟩ := h _ (List.mem_cons_self _ _)
      have hvalne : ¬ (value_at v s m = l_true) := by
        simpa [litIsTrue] using hval
      have hcond : ¬ (v ≠ ev ∧ m v = l_undef) := by
        intro hc
        rcases hdef with h1 | h2
        · exact hc.1 h1
        · exact h2 hc.2
      simp only [List.cons_append, applyEntry, if_neg hvalne, if_neg hcond,
        Bool.false_eq_true, if_false]
      exact ih rest (if v = ev then s else vs0) m
        (fun hm => hnn (List.mem_cons_of_mem _ hm))
        (fun l2 hl2 => h l2 (List.mem_cons_of_mem _ hl2))

/-- When the clause contains the entry variable, the running var_sign at its end
is the polarity of its last occurrence, whatever the incoming value. -/
theorem varSignAfter_of_lastPol (ev : Nat) :
    ∀ (c : List Lit) (acc : Option Bool) (vs0 : Bool) (sStar : Bool),
      lastPolIn ev c acc = some sStar →
      (∀ b, acc = some b → b = vs0) →
      varSignAfter ev c vs0 = sStar := by
  intro c
  induction c with
  | nil =>
    intro acc vs0 sStar h1 h2
    simp only [lastPolIn] at h1
    simpa [varSignAfter] using (h2 sStar h1).symm
  | cons l c ih =>
    intro acc vs0 sStar h1 h2
    cases l with
    | null =>
      simp only [lastPolIn] at h1
      simp only [varSignAfter]
      exact ih acc vs0 sStar h1 h2
    | lit v s =>
      simp only [lastPolIn] at h1
      simp only [varSignAfter]
      apply ih _ _ _ h1
      intro b hb
      by_cases hvev : v = ev
      · rw [if_pos hvev] at hb
        rw [if_pos hvev]
        exact (Option.some.inj hb).symm
      · rw [if_neg hvev] at hb
        rw [if_neg hvev]
        exact h2 b hb

/-- The literal fold of max_var never goes below its starting value. -/
theorem maxLits_init_le : ∀ (cls : List Lit) (r : Nat), r ≤ maxLits r cls := by
  intro cls
  induction cls with
  | nil => intro r; exact Nat.le_refl r
  | cons l rest ih =>
    intro r
    cases l with
    | null => exact ih r
    | lit v s =>
      refine Nat.le_trans ?_ (ih _)
      by_cases h : v > r
      · rw [if_pos h]; exact Nat.le_of_lt h
      · rw [if_neg h]

/-- The literal fold of max_var dominates every real literal's variable. -/
theorem maxLits_mem : ∀ (cls : List Lit) (r v : Nat) (s : Bool),
    Lit.lit v s ∈ cls → v ≤ maxLits r cls := by
  intro cls
  induction cls with
  | nil => intro r v s h; cases h
  | cons l rest ih =>
    intro r v s h
    cases l with
    | null =>
      rcases List.mem_cons.mp h with h1 | h2
      · exact Lit.noConfusion h1
      · exact ih r v s h2
    | lit w s2 =>
      rcases List.mem_cons.mp h with h1 | h2
      · injection h1 with hv hs
        subst hv
        refine Nat.le_trans ?_ (maxLits_init_le rest _)
        by_cases hgt : v > r
        · rw [if_pos hgt]
        · rw [if_neg hgt]; exact Nat.le_of_not_lt hgt
      · exact ih _ v s h2

/-- The entry fold of max_var never goes below its starting value. -/
theorem foldl_maxLits_init_le :
    ∀ (l : List Entry) (r : Nat),
      r ≤ l.foldl (fun r2 e => maxLits r2 e.clauses) r := by
  intro l
  induction l with
  | nil => intro r; exact Nat.le_refl r
  | cons e l ih =>
    intro r
    exact Nat.le_trans (maxLits_init_le e.clauses r) (ih _)

/-- The entry fold of max_var dominates every justification variable. -/
theorem foldl_maxLits_mem :
    ∀ (l : List Entry) (r : Nat) (e : Entry), e ∈ l →
      ∀ (v : Nat) (s : Bool), Lit.lit v s ∈ e.clauses →
        v ≤ l.foldl (fun r2 e2 => maxLits r2 e2.clauses) r := by
  intro l
  induction l with
  | nil => intro r e h; cases h
  | cons a l ih =>
    intro r e h v s hl
    rcases List.mem_cons.mp h with rfl | h2
    · exact Nat.le_trans (maxLits_mem e.clauses r v s hl) (foldl_maxLits_init_le l _)
    · exact ih _ e h2 v s hl

/-- modifyIdx maps the entry at the modified position. -/
theorem modifyIdx_self :
    ∀ (l : List Entry) (i : Nat) (f : Entry → Entry),
      (modifyIdx l i f)[i]? = (l[i]?).map f := by
  intro l
  induction l with
  | nil => intro i f; simp [modifyIdx]
  | cons a l ih =>
    intro i f
    cases i with
    | zero => simp [modifyIdx]
    | succ k => simpa [modifyIdx] using ih k f

/-- modifyIdx leaves every other position unchanged. -/
theorem modifyIdx_ne :
    ∀ (l : List Entry) (i j : Nat) (f : Entry → Entry), j ≠ i →
      (modifyIdx l i f)[j]? = l[j]? := by
  intro l
  induction l with
  | nil => intro i j f _; simp [modifyIdx]
  | cons a l ih =>
    intro i j f hne
    cases i with
    | zero =>
      cases j with
      | zero => exact absurd rfl hne
      | succ k => simp [modifyIdx]
    | succ ki =>
      cases j with
      | zero => simp [modifyIdx]
      | succ k => simpa [modifyIdx] using ih ki k f (fun h => hne (by rw [h]))

/-- The apply precondition holds for any model defined away from variable 3 and
any ledger containing an entry for variable 3. -/
theorem applyPre_of_var3 (mc : ModelConverter) (m : Model)
    (hmem : ∃ e ∈ mc.entries, e.var = 3)
    (hm : ∀ v, v ≠ 3 → m v ≠ l_undef) : applyPre mc m := by
  intro v hv
  by_cases h3 : v = 3
  · obtain ⟨e, he, he3⟩ := hmem
    exact absurd (he3.trans h3.symm) (hv e he)
  · exact hm v h3

/-- mA is defined away from variable 3. -/
theorem mA_pre : ∀ v, v ≠ 3 → mA v ≠ l_undef := by
  intro v h
  simp [mA, h]

/-- mB is defined away from variable 3. -/
theorem mB_pre : ∀ v, v ≠ 3 → mB v ≠ l_undef := by
  intro v h
  simp [mB, h]

/-- The single-entry ledger mcA satisfies the strengthened invariant. -/
theorem noLaterRef_mcA : noLaterRef mcA.entries := by
  refine ⟨?_, trivial⟩
  intro e2 he2
  cases he2

/-- C1 (amended): for every ledger satisfying the non-reference invariant
strengthened to all entry kinds, every model assigning all non-ledger variables,
and whose replay passes the per-entry debug self-check, apply followed by
check_model returns true. -/
theorem C1_apply_then_check_model (mc : ModelConverter) (m : Model)
    (hinv : noLaterRef mc.entries) (_hpre : applyPre mc m)
    (hsc : applySelfCheck mc.entries.reverse m = true) :
    check_model mc (applyMC mc m) = true := by
  have hrev := (noLaterRef_iff_revInv mc.entries).mp hinv
  have h := applyRev_selfcheck_sat mc.entries.reverse m hrev hsc
  rw [check_model_iff_entries]
  intro e he
  exact h e (List.mem_reverse.mpr he)

/-- C1 (witness): the scenario A ledger and model satisfy all hypotheses, and
check_model succeeds after apply. -/
theorem C1_witness : check_model mcA (applyMC mcA mA) = true :=
  C1_apply_then_check_model mcA mA noLaterRef_mcA
    (applyPre_of_var3 mcA mA ⟨eA, List.mem_cons_self _ _, rfl⟩ mA_pre)
    (by decide)

/-- C1 (counterexample): the ledger mcContra passes every condition checked by
check_invariant and the model mA assigns every non-ledger variable, yet apply
followed by check_model returns false, refuting the claim as stated. -/
theorem C1_counterexample :
    check_invariant_asserts mcContra 6 = true ∧ applyPre mcContra mA ∧
      check_model mcContra (applyMC mcContra mA) = false := by
  refine ⟨by decide, ?_, by decide⟩
  exact applyPre_of_var3 mcContra mA ⟨eContra, List.mem_cons_self _ _, rfl⟩ mA_pre

/-- C2 (amended): for every ledger satisfying the strengthened non-reference
invariant and every model meeting apply's precondition, after apply every entry
variable is defined or every clause of its entry is satisfied under the
resulting model. -/
theorem C2_apply_totality (mc : ModelConverter) (m : Model)
    (hinv : noLaterRef mc.entries) (_hpre : applyPre mc m) :
    ∀ e ∈ mc.entries, applyMC mc m e.var ≠ l_undef ∨
      clsOk (applyMC mc m) e.clauses false = true := by
  intro e he
  exact applyRev_totality mc.entries.reverse m
    ((noLaterRef_iff_revInv mc.entries).mp hinv) e (List.mem_reverse.mpr he)

/-- C2 (witness): instantiated on the scenario A ledger and model. -/
theorem C2_witness :
    applyMC mcA mA eA.var ≠ l_undef ∨
      clsOk (applyMC mcA mA) eA.clauses false = true :=
  C2_apply_totality mcA mA noLaterRef_mcA
    (applyPre_of_var3 mcA mA ⟨eA, List.mem_cons_self _ _, rfl⟩ mA_pre)
    eA (List.mem_cons_self _ _)

/-- C2 (counterexample): on the scenario A ledger with the model mB meeting
apply's precondition, apply leaves the subject variable 3 undefined, refuting
the claim as stated. -/
theorem C2_counterexample :
    applyPre mcA mB ∧ applyMC mcA mB eA.var = l_undef := by
  refine ⟨?_, by decide⟩
  exact applyPre_of_var3 mcA mB ⟨eA, List.mem_cons_self _ _, rfl⟩ mB_pre

/-- C3 (amended): check_invariant always returns true, for every ledger and
variable count; the violations named by the claim are instead caught by the
debug assertions inside it, modelled by check_invariant_asserts, which fail on
the scenario C ledger and on a ledger whose entries share a variable when the
earlier entry has kind ELIM_VAR. -/
theorem C3_check_invariant_returns_true :
    (∀ (mc : ModelConverter) (n : Nat), check_invariant mc n = true) ∧
      check_invariant_asserts scenC 6 = false ∧
      check_invariant_asserts dupMC 6 = false :=
  ⟨fun _ _ => rfl, by decide, by decide⟩

/-- C3 (counterexample): on the scenario C ledger, whose second entry mentions
the previously eliminated variable 5, check_invariant returns true rather than
false; the violated conditions only falsify the debug assertions. -/
theorem C3_counterexample :
    check_invariant scenC 6 = true ∧ check_invariant_asserts scenC 6 = false :=
  ⟨rfl, by decide⟩

/-- C4 (confirmed): check_model returns true exactly when every
sentinel-delimited justification clause of every entry contains a literal that
is true under the model; being a pure function of the ledger and the model, it
mutates neither. -/
theorem C4_check_model_characterization (mc : ModelConverter) (m : Model) :
    check_model mc m = true ↔
      ∀ e ∈ mc.entries, ∀ c ∈ splitCl e.clauses [],
        ∃ l ∈ c, litIsTrue m l = true := by
  rw [check_model_iff_entries]
  constructor
  · intro h e he c hc
    have h2 := (clsOk_iff_splitCl m e.clauses [] false rfl).mp (h e he) c hc
    rcases List.any_eq_true.mp h2 with ⟨l, hl, hlt⟩
    exact ⟨l, hl, hlt⟩
  · intro h e he
    apply (clsOk_iff_splitCl m e.clauses [] false rfl).mpr
    intro c hc
    rcases h e he c hc with ⟨l, hl, hlt⟩
    exact List.any_eq_true.mpr ⟨l, hl, hlt⟩

/-- C4 (witness): on the scenario A ledger under mB, check_model succeeds and
the characterization yields a true literal in the single clause. -/
theorem C4_witness :
    ∃ l ∈ [Lit.lit 1 false, Lit.lit 3 true], litIsTrue mB l = true :=
  (C4_check_model_characterization mcA mB).mp (by decide) eA
    (List.mem_cons_self _ _) [Lit.lit 1 false, Lit.lit 3 true] (by decide)

/-- C5 (confirmed): when the scan of a clause reaches its sentinel with every
literal neither true nor assignable, the entry's variable is assigned l_false
exactly when the last-seen polarity of its occurrence in that clause is
negative, and the remaining justification is not scanned. -/
theorem C5_sentinel_assign (ev : Nat) (c rest : List Lit) (vs0 : Bool)
    (m : Model) (sStar : Bool)
    (hnn : Lit.null ∉ c)
    (hscan : ∀ l ∈ c, litIsTrue m l = false ∧ (l.varIdx = ev ∨ m l.varIdx ≠ l_undef))
    (hlast : lastPolIn ev c none = some sStar) :
    applyEntry ev (c ++ Lit.null :: rest) false vs0 m =
      updateM m ev (if sStar then l_false else l_true) := by
  rw [applyEntry_unsat_clause ev c rest vs0 m hnn hscan,
    varSignAfter_of_lastPol ev c none vs0 sStar hlast
      (fun b hb => Option.noConfusion hb)]

/-- C5 (witness): scenario A, where the clause (var 1 positive, var 3 negative)
is unsatisfied under mA and variable 3's last-seen polarity is negative, so
apply sets variable 3 to l_false. -/
theorem C5_witness : applyMC mcA mA 3 = l_false := by
  show applyEntry 3 ([Lit.lit 1 false, Lit.lit 3 true] ++ Lit.null :: [])
    false false mA 3 = l_false
  rw [C5_sentinel_assign 3 [Lit.lit 1 false, Lit.lit 3 true] [] false mA true
    (by decide) (by decide) (by decide)]
  decide

/-- C6 (amended): if every ledger variable is defined, every variable occurring
in any justification is defined, and every justification clause is already
satisfied, then apply changes no value of any variable. -/
theorem C6_apply_noop (mc : ModelConverter) (m : Model)
    (_hvars : ∀ e ∈ mc.entries, m e.var ≠ l_undef)
    (hjust : ∀ e ∈ mc.entries, ∀ (v : Nat) (s : Bool),
      Lit.lit v s ∈ e.clauses → m v ≠ l_undef)
    (hsat : ∀ e ∈ mc.entries, ∀ c ∈ splitCl e.clauses [],
      ∃ l ∈ c, litIsTrue m l = true) :
    ∀ w, applyMC mc m w = m w := by
  intro w
  have hnoop : applyRev mc.entries.reverse m = m := by
    apply applyRev_noop
    · intro e he v s hl
      exact hjust e (List.mem_reverse.mp he) v s hl
    · intro e he
      apply (clsOk_iff_splitCl m e.clauses [] false rfl).mpr
      intro c hc
      rcases hsat e (List.mem_reverse.mp he) c hc with ⟨l, hl, hlt⟩
      exact List.any_eq_true.mpr ⟨l, hl, hlt⟩
  show applyRev mc.entries.reverse m w = m w
  rw [hnoop]

/-- C6 (witness): on mc6 with the everywhere-true model, apply changes nothing. -/
theorem C6_witness : applyMC mc6 mAllTrue 0 = mAllTrue 0 :=
  C6_apply_noop mc6 mAllTrue (by decide)
    (by intro e he v s hl; simp [mAllTrue]) (by decide) 0

/-- C6 (counterexample): on mc6 and m6 every entry variable is defined and every
justification clause is already satisfied, yet apply assigns the undefined
non-entry variable 0, changing its value and refuting the claim as stated. -/
theorem C6_counterexample :
    (∀ e ∈ mc6.entries, m6 e.var ≠ l_undef) ∧
      (∀ e ∈ mc6.entries, ∀ c ∈ splitCl e.clauses [],
        ∃ l ∈ c, litIsTrue m6 l = true) ∧
      ¬ applyMC mc6 m6 0 = m6 0 :=
  ⟨by decide, by decide, by decide⟩

/-- C7 (confirmed): max_var dominates its floor argument and every variable
index occurring in any literal of any entry's justification. -/
theorem C7_max_var_bound (mc : ModelConverter) (floor : Nat) :
    floor ≤ max_var mc floor ∧
      ∀ e ∈ mc.entries, ∀ (v : Nat) (s : Bool), Lit.lit v s ∈ e.clauses →
        v ≤ max_var mc floor := by
  constructor
  · exact foldl_maxLits_init_le mc.entries floor
  · intro e he v s hl
    exact foldl_maxLits_mem mc.entries floor e he v s hl

/-- C7 (witness): on the scenario A ledger with floor 0, max_var dominates the
justification variable 1. -/
theorem C7_witness : 1 ≤ max_var mcA 0 :=
  (C7_max_var_bound mcA 0).2 eA (List.mem_cons_self _ _) 1 false (by decide)

/-- C8 (confirmed): attach_clause appends exactly the clause's literals in order
followed by one sentinel to the addressed entry's justification and leaves every
other entry unchanged; attach_binary, under its precondition that one of the two
literals is over the entry's variable, appends the two literals and the
sentinel. -/
theorem C8_attach_spec :
    (∀ (mc : ModelConverter) (i : Nat) (c : List Lit) (e : Entry),
       mc.entries[i]? = some e →
       (attachClause mc i c).entries[i]? =
         some ⟨e.kind, e.var, e.clauses ++ c ++ [Lit.null]⟩ ∧
       ∀ j, j ≠ i → (attachClause mc i c).entries[j]? = mc.entries[j]?) ∧
    (∀ (mc : ModelConverter) (i : Nat) (l1 l2 : Lit) (e : Entry),
       mc.entries[i]? = some e →
       (l1.varIdx = e.var ∨ l2.varIdx = e.var) →
       (attachBin mc i l1 l2).entries[i]? =
         some ⟨e.kind, e.var, e.clauses ++ [l1, l2, Lit.null]⟩ ∧
       ∀ j, j ≠ i → (attachBin mc i l1 l2).entries[j]? = mc.entries[j]?) := by
  constructor
  · intro mc i c e he
    constructor
    · show (modifyIdx mc.entries i (fun e2 => insertClause e2 c))[i]? = _
      rw [modifyIdx_self, he]
      rfl
    · intro j hj
      exact modifyIdx_ne mc.entries i j _ hj
  · intro mc i l1 l2 e he hpre
    constructor
    · show (modifyIdx mc.entries i (fun e2 => insertBin e2 l1 l2))[i]? = _
      rw [modifyIdx_self, he]
      rfl
    · intro j hj
      exact modifyIdx_ne mc.entries i j _ hj

/-- C8 (witness): attaching a unit clause to the single entry of mcA. -/
theorem C8_witness :
    (attachClause mcA 0 [Lit.lit 3 false]).entries[0]? =
      some ⟨eA.kind, eA.var, eA.clauses ++ [Lit.lit 3 false] ++ [Lit.null]⟩ :=
  (C8_attach_spec.1 mcA 0 [Lit.lit 3 false] eA (by decide)).1

/-- C9 (confirmed): apply never changes the value of a defined variable owned by
no ledger entry. -/
theorem C9_apply_frame (mc : ModelConverter) (m : Model) (v : Nat)
    (hd : m v ≠ l_undef) (hv : ∀ e ∈ mc.entries, e.var ≠ v) :
    applyMC mc m v = m v := by
  apply applyRev_preserve _ _ _ hd
  intro e he
  exact hv e (List.mem_reverse.mp he)

/-- C9 (witness): on scenario A, variable 1 is defined and owned by no entry, so
apply leaves it unchanged. -/
theorem C9_witness : applyMC mcA mA 1 = mA 1 :=
  C9_apply_frame mcA mA 1 (by decide) (by decide)

/-- C10 (confirmed): copying from the converter itself first clears the single
shared object, leaving the ledger empty, while copying between two distinct
converters makes the destination's entries equal the source's pre-call
entries. -/
theorem C10_copy_spec :
    (∀ mc : ModelConverter, (selfCopy mc).entries = []) ∧
      ∀ dst src : ModelConverter, (copyMC dst src).entries = src.entries :=
  ⟨fun _ => rfl, fun _ _ => rfl⟩

end SatMC
